import Mathlib

/-!
Verification development for the `ai_client` core of the mini-ai-1c repository
(`src/tauri-app/src-tauri/src/ai_client.rs`).

Modelling conventions:
* Rust `String` / `&str` values are modelled as `List Char`; raw network bytes
  are modelled as `List Nat` (each entry one byte).  All patterns the client
  searches for (`"\n\n"`, `"data: "`, code-fence tags, URL fragments) are
  ASCII, so the byte indices used by the Rust code and the character indices
  used here coincide at every slicing point.
* `String::from_utf8_lossy` is modelled by `utf8Lossy`: UTF-8 decoding with
  U+FFFD substitution of maximal subparts, as Rust implements it.
* `serde_json::from_str::<StreamChunk>` is an external library call; it is
  modelled as an explicit function parameter
  `parse : List Char → Option StreamChunk` (`none` models a parse failure).
  Theorems that need the parser's behaviour on particular payloads take that
  behaviour as a hypothesis; `parseTable` is one concrete instantiation used
  to discharge those hypotheses.
* `app_handle.emit("chat-chunk", ...)` returns a `Result` that the code
  discards (`let _ = ...`).  It is modelled by a parameter
  `sink : List Char → Bool` whose result is discarded, plus the list of
  fragments handed to it (the `em` component of the state).
* Loops that re-slice a shrinking buffer are modelled by structural recursion
  on a fuel argument; each wrapper passes the buffer length as fuel, which is
  sufficient because every iteration consumes at least one element.  The
  fuel-irrelevance lemmas below justify that the fuel never runs out.
-/

/-- The Unicode replacement character U+FFFD. -/
def fffd : Char := Char.ofNat 0xFFFD

/-- Is `b` a UTF-8 continuation byte (`0x80..=0xBF`)? -/
def contB (b : Nat) : Prop := 0x80 ≤ b ∧ b < 0xC0

instance (b : Nat) : Decidable (contB b) := by unfold contB; infer_instance

/-- Model of Rust's `String::from_utf8_lossy`: UTF-8 decoding where each
maximal invalid subpart is replaced by one U+FFFD, per the substitution of
maximal subparts policy that Rust implements. -/
def utf8Lossy : List Nat → List Char
  | [] => []
  | b :: rest =>
    if b < 0x80 then Char.ofNat b :: utf8Lossy rest
    else if 0xC2 ≤ b ∧ b ≤ 0xDF then
      match rest with
      | [] => [fffd]
      | b1 :: rest1 =>
        if contB b1 then
          Char.ofNat ((b - 0xC0) * 0x40 + (b1 - 0x80)) :: utf8Lossy rest1
        else fffd :: utf8Lossy (b1 :: rest1)
    else if 0xE0 ≤ b ∧ b ≤ 0xEF then
      match rest with
      | [] => [fffd]
      | b1 :: rest1 =>
        if (b = 0xE0 ∧ 0xA0 ≤ b1 ∧ b1 ≤ 0xBF) ∨
           (b = 0xED ∧ 0x80 ≤ b1 ∧ b1 ≤ 0x9F) ∨
           (b ≠ 0xE0 ∧ b ≠ 0xED ∧ contB b1) then
          match rest1 with
          | [] => [fffd]
          | b2 :: rest2 =>
            if contB b2 then
              Char.ofNat ((b - 0xE0) * 0x1000 + (b1 - 0x80) * 0x40 + (b2 - 0x80)) ::
                utf8Lossy rest2
            else fffd :: utf8Lossy (b2 :: rest2)
        else fffd :: utf8Lossy (b1 :: rest1)
    else if 0xF0 ≤ b ∧ b ≤ 0xF4 then
      match rest with
      | [] => [fffd]
      | b1 :: rest1 =>
        if (b = 0xF0 ∧ 0x90 ≤ b1 ∧ b1 ≤ 0xBF) ∨
           (b = 0xF4 ∧ 0x80 ≤ b1 ∧ b1 ≤ 0x8F) ∨
           (b ≠ 0xF0 ∧ b ≠ 0xF4 ∧ contB b1) then
          match rest1 with
          | [] => [fffd]
          | b2 :: rest2 =>
            if contB b2 then
              match rest2 with
              | [] => [fffd]
              | b3 :: rest3 =>
                if contB b3 then
                  Char.ofNat ((b - 0xF0) * 0x40000 + (b1 - 0x80) * 0x1000 +
                    (b2 - 0x80) * 0x40 + (b3 - 0x80)) :: utf8Lossy rest3
                else fffd :: utf8Lossy (b3 :: rest3)
            else fffd :: utf8Lossy (b2 :: rest2)
        else fffd :: utf8Lossy (b1 :: rest1)
    else fffd :: utf8Lossy rest

/-- The UTF-8 bytes of an ASCII string (used only on concrete ASCII text,
where these are exactly the code points). -/
def strBytes (s : String) : List Nat := s.data.map Char.toNat

/-- Concatenated lossy decoding of a list of network chunks, in order:
each chunk is decoded in isolation, as in the Rust read loop. -/
def decodeJoin (chunks : List (List Nat)) : List Char :=
  (chunks.map utf8Lossy).flatten

/-- `stripPre pre l = some rest` iff `l = pre ++ rest`; models
Rust's `str::strip_prefix`. -/
def stripPre : List Char → List Char → Option (List Char)
  | [], l => some l
  | _ :: _, [] => none
  | p :: ps, c :: cs => if c = p then stripPre ps cs else none

/-- First occurrence (0-based index) of `pat` in `l`; models Rust's
`str::find` for the ASCII patterns used by the client. -/
def findSub : List Char → List Char → Option Nat
  | [], pat => if (stripPre pat []).isSome then some 0 else none
  | c :: t, pat =>
    if (stripPre pat (c :: t)).isSome then some 0
    else (findSub t pat).map (· + 1)

/-- `pat` occurs as a contiguous substring of `l`. -/
def occursIn (pat l : List Char) : Prop := ∃ pre suf, l = pre ++ pat ++ suf

/-- Split on `'\n'`; the result always has one more entry than the number of
newlines (helper for modelling Rust's `str::lines`). -/
def splitNl : List Char → List (List Char)
  | [] => [[]]
  | c :: rest =>
    if c = '\n' then [] :: splitNl rest
    else
      match splitNl rest with
      | s :: ss => (c :: s) :: ss
      | [] => [[c]]

/-- Drop one trailing `'\r'` if present (the `\r\n` handling of
Rust's `str::lines`). -/
def stripCr (l : List Char) : List Char :=
  if l.getLast? = some '\r' then l.dropLast else l

/-- Model of Rust's `str::lines`: split at `\n` or `\r\n`; the final line
ending is optional, and only the terminated segments have a trailing `\r`
stripped. -/
def rustLines (e : List Char) : List (List Char) :=
  let segs := splitNl e
  segs.dropLast.map stripCr ++
    match segs.getLast? with
    | none => []
    | some [] => []
    | some last => [last]

/-- The delta payload of one streamed choice (`StreamDelta` in the source). -/
structure StreamDelta where
  content : Option (List Char)
deriving DecidableEq

/-- One streamed choice (`StreamChoice` in the source). -/
structure StreamChoice where
  delta : StreamDelta
deriving DecidableEq

/-- One streaming chunk record (`StreamChunk` in the source). -/
structure StreamChunk where
  choices : List StreamChoice
deriving DecidableEq

/-- A `StreamChunk` whose only choice carries content `c`. -/
def mkContentChunk (c : List Char) : StreamChunk := ⟨[⟨⟨some c⟩⟩]⟩

/-- `"data: "`, the SSE payload marker the client strips. -/
def dataMarker : List Char := "data: ".data

/-- `"[DONE]"`, the terminal payload. -/
def doneTok : List Char := "[DONE]".data

/-- `"data: [DONE]"` — the only line shape that terminates the stream. -/
def dataDone : List Char := "data: [DONE]".data

/-- `"\n\n"`, the SSE event delimiter. -/
def nlnl : List Char := "\n\n".data

/-- Outcome of processing lines of an SSE event: either the `[DONE]` early
return (with the accumulator and emitted fragments at that moment) or the
updated state. -/
inductive EvOut where
  | done (full : List Char) (em : List (List Char))
  | next (full : List Char) (em : List (List Char))
deriving DecidableEq

/-- The accumulator carried by an event outcome. -/
def EvOut.fullE : EvOut → List Char
  | .done f _ => f
  | .next f _ => f

/-- The emitted fragments carried by an event outcome. -/
def EvOut.emE : EvOut → List (List Char)
  | .done _ e => e
  | .next _ e => e

/-- Processing of one line of an SSE event (the body of the
`for line in event.lines()` loop in `stream_chat_completion`). -/
def procLine (parse : List Char → Option StreamChunk) (sink : List Char → Bool)
    (full : List Char) (em : List (List Char)) (line : List Char) : EvOut :=
  match stripPre dataMarker line with
  | none => .next full em
  | some data =>
    if data = doneTok then .done full em
    else
      match parse data with
      | none => .next full em
      | some chunk =>
        match chunk.choices.head? with
        | none => .next full em
        | some choice =>
          match choice.delta.content with
          | none => .next full em
          | some content =>
            let _ := sink content
            .next (full ++ content) (em ++ [content])

/-- Processing of all lines of one event, with the `[DONE]` early return. -/
def procLines (parse : List Char → Option StreamChunk) (sink : List Char → Bool) :
    List (List Char) → List Char → List (List Char) → EvOut
  | [], full, em => .next full em
  | line :: ls, full, em =>
    match procLine parse sink full em line with
    | .done f e => .done f e
    | .next f e => procLines parse sink ls f e

/-- Outcome of draining the reassembly buffer: early `[DONE]` return, or the
leftover buffer plus updated state. -/
inductive BufOut where
  | done (full : List Char) (em : List (List Char))
  | cont (buf : List Char) (full : List Char) (em : List (List Char))
deriving DecidableEq

/-- The accumulator carried by a drain outcome. -/
def BufOut.fullB : BufOut → List Char
  | .done f _ => f
  | .cont _ f _ => f

/-- The emitted fragments carried by a drain outcome. -/
def BufOut.emB : BufOut → List (List Char)
  | .done _ e => e
  | .cont _ _ e => e

/-- Fuelled form of the buffer drain (the inner
`while let Some(pos) = buffer.find("\n\n")` loop of `stream_chat_completion`).
Each complete event (text before the first blank line) is processed; the
delimiter and everything after it stay in the buffer. -/
def procBufferF (parse : List Char → Option StreamChunk) (sink : List Char → Bool) :
    Nat → List Char → List Char → List (List Char) → BufOut
  | 0, buf, full, em => .cont buf full em
  | fuel + 1, buf, full, em =>
    match findSub buf nlnl with
    | none => .cont buf full em
    | some pos =>
      match procLines parse sink (rustLines (buf.take pos)) full em with
      | .done f e => .done f e
      | .next f e => procBufferF parse sink fuel (buf.drop (pos + 2)) f e

/-- The buffer drain; `buf.length` fuel suffices because every extracted
event consumes at least the two delimiter characters. -/
def procBuffer (parse : List Char → Option StreamChunk) (sink : List Char → Bool)
    (buf full : List Char) (em : List (List Char)) : BufOut :=
  procBufferF parse sink buf.length buf full em

/-- Final outcome of the read loop: `done` is the early `return Ok` on
`[DONE]`; `eof` is the `Ok(full_response)` after the stream is exhausted. -/
inductive RunOut where
  | done (full : List Char) (em : List (List Char))
  | eof (full : List Char) (em : List (List Char))
deriving DecidableEq

/-- The accumulated response text carried by a run outcome. -/
def RunOut.full : RunOut → List Char
  | .done f _ => f
  | .eof f _ => f

/-- The fragments handed to the sink, in emission order. -/
def RunOut.emitted : RunOut → List (List Char)
  | .done _ e => e
  | .eof _ e => e

/-- The outer `while let Some(chunk_result) = stream.next().await` loop of
`stream_chat_completion`: each network chunk is lossily decoded in isolation,
appended to the buffer, and the buffer drained of complete events.  (The
mid-stream transport-error abort is outside the claims modelled here, so
chunks are the successfully received byte groups.) -/
def runChunks (parse : List Char → Option StreamChunk) (sink : List Char → Bool) :
    List (List Nat) → List Char → List Char → List (List Char) → RunOut
  | [], _, full, em => .eof full em
  | c :: cs, buf, full, em =>
    match procBuffer parse sink (buf ++ utf8Lossy c) full em with
    | .done f e => .done f e
    | .cont b f e => runChunks parse sink cs b f e

/-- An HTTP response as seen by the streaming client: the numeric status
code, the rendered form of the status (reqwest's `Display`, e.g.
`"401 Unauthorized"`), the error body (`none` when unreadable), and the
body's network chunks. -/
structure HttpResponse where
  statusCode : Nat
  statusText : List Char
  bodyText : Option (List Char)
  chunks : List (List Nat)

/-- reqwest's `StatusCode::is_success`: `200..=299`. -/
def isSuccess (code : Nat) : Prop := 200 ≤ code ∧ code ≤ 299

instance (code : Nat) : Decidable (isSuccess code) := by
  unfold isSuccess; infer_instance

/-- The response-handling part of `stream_chat_completion`: the status check
with its `API error {status}: {body}` failure (body read best-effort,
`unwrap_or_default`), then the streaming read loop.  Returns the call's
result together with the fragments handed to the sink. -/
def stream_chat_completion (parse : List Char → Option StreamChunk)
    (sink : List Char → Bool) (resp : HttpResponse) :
    Except (List Char) (List Char) × List (List Char) :=
  if isSuccess resp.statusCode then
    let out := runChunks parse sink resp.chunks [] [] []
    (.ok out.full, out.emitted)
  else
    (.error ("API error ".data ++ resp.statusText ++ ": ".data ++
      resp.bodyText.getD []), [])

/-- `"```"`, the closing fence marker of `extract_bsl_code`. -/
def close3 : List Char := "```".data

/-- Rust's `char::is_whitespace` (the Unicode `White_Space` property). -/
def isRustWs (c : Char) : Bool :=
  decide ((0x09 ≤ c.toNat ∧ c.toNat ≤ 0x0D) ∨ c.toNat = 0x20 ∨ c.toNat = 0x85 ∨
    c.toNat = 0xA0 ∨ c.toNat = 0x1680 ∨ (0x2000 ≤ c.toNat ∧ c.toNat ≤ 0x200A) ∨
    c.toNat = 0x2028 ∨ c.toNat = 0x2029 ∨ c.toNat = 0x202F ∨ c.toNat = 0x205F ∨
    c.toNat = 0x3000)

/-- Rust's `str::trim`: drop leading and trailing whitespace. -/
def trimRust (l : List Char) : List Char :=
  ((l.dropWhile isRustWs).reverse.dropWhile isRustWs).reverse

/-- Fuelled form of one scan pass of `extract_bsl_code`: find the opening
`tag`, then the closing ```` ``` ````; push the trimmed text between them and
resume after the closer.  An opener with no closer ends the pass (`break`). -/
def scanFencesF (tag : List Char) : Nat → List Char → List (List Char)
  | 0, _ => []
  | fuel + 1, text =>
    match findSub text tag with
    | none => []
    | some i =>
      match findSub (text.drop (i + tag.length)) close3 with
      | none => []
      | some j =>
        trimRust ((text.drop (i + tag.length)).take j) ::
          scanFencesF tag fuel ((text.drop (i + tag.length)).drop (j + 3))

/-- One scan pass; `text.length` fuel suffices because every found region
consumes at least the three closing-fence characters. -/
def scanFences (tag text : List Char) : List (List Char) :=
  scanFencesF tag text.length text

/-- `extract_bsl_code`: the ```` ```bsl ```` pass followed by the
```` ```1c ```` pass over the same text, results appended in that order. -/
def extract_bsl_code (text : List Char) : List (List Char) :=
  scanFences "```bsl".data text ++ scanFences "```1c".data text

/-- Rust's `str::ends_with` for these character lists. -/
def rustEndsWith (l suf : List Char) : Bool :=
  decide (l.drop (l.length - suf.length) = suf)

/-- Rust's `str::trim_end_matches('/')`: drop every trailing slash. -/
def trimEndSlashes (l : List Char) : List Char :=
  (l.reverse.dropWhile (fun c => c = '/')).reverse

/-- Fuelled form of Rust's `str::replace`: replace each non-overlapping
occurrence of `pat`, left to right.  (Faithful for the nonempty patterns the
client uses; Rust's empty-pattern behaviour is not modelled.) -/
def rustReplaceF (pat rep : List Char) : Nat → List Char → List Char
  | 0, l => l
  | fuel + 1, l =>
    match findSub l pat with
    | none => l
    | some i => l.take i ++ rep ++ rustReplaceF pat rep fuel (l.drop (i + pat.length))

/-- Rust's `str::replace`; `l.length` fuel suffices for nonempty patterns. -/
def rustReplace (l pat rep : List Char) : List Char :=
  rustReplaceF pat rep l.length l

/-- `"/chat/completions"`. -/
def chatSuffix : List Char := "/chat/completions".data

/-- `"/models"`. -/
def modelsSeg : List Char := "/models".data

/-- The URL derivation in `fetch_models`: if the base URL ends with
`/chat/completions`, run `str::replace` of that string by `/models`;
otherwise strip trailing slashes and append `/models`. -/
def fetch_models_url (base : List Char) : List Char :=
  if rustEndsWith base chatSuffix then rustReplace base chatSuffix modelsSeg
  else trimEndSlashes base ++ modelsSeg

/-- The URL the claim describes for the first branch: the final
`/chat/completions` suffix replaced by `/models` (and nothing else). -/
def suffixReplaceUrl (base : List Char) : List Char :=
  base.take (base.length - chatSuffix.length) ++ modelsSeg

/-- A generic JSON value (`serde_json::Value`). -/
inductive Json where
  | null
  | bool (b : Bool)
  | num (n : Int)
  | str (s : String)
  | arr (xs : List Json)
  | obj (kvs : List (String × Json))

/-- `serde_json::Value::get` on objects: first binding of the key. -/
def jsonGet (j : Json) (k : String) : Option Json :=
  match j with
  | .obj kvs => kvs.lookup k
  | _ => none

/-- `serde_json::Value::as_array`. -/
def jsonAsArray : Json → Option (List Json)
  | .arr xs => some xs
  | _ => none

/-- `serde_json::Value::as_str`. -/
def jsonAsStr : Json → Option String
  | .str s => some s
  | _ => none

/-- The model-id collection loop of `fetch_models`: read `data` as a list and
keep each element's string-valued `id`, skipping anything else. -/
def extractModels (j : Json) : List String :=
  match (jsonGet j "data").bind jsonAsArray with
  | none => []
  | some list => list.filterMap (fun item => (jsonGet item "id").bind jsonAsStr)

/-- Byte-lexicographic comparison of strings as Rust's `Ord` on `String`
(code-point order coincides with UTF-8 byte order). -/
def strLeB : List Char → List Char → Bool
  | [], _ => true
  | _ :: _, [] => false
  | x :: xs, y :: ys =>
    if x.toNat < y.toNat then true
    else if y.toNat < x.toNat then false
    else strLeB xs ys

/-- `≤` on strings in Rust's sort order. -/
def strLe (s t : String) : Bool := strLeB s.data t.data

/-- Sorted insertion for `sortStrings`. -/
def insertStr (s : String) : List String → List String
  | [] => [s]
  | t :: ts => if strLe s t then s :: t :: ts else t :: insertStr s ts

/-- Model of `Vec::<String>::sort()`: a stable sort in `strLe` order. -/
def sortStrings : List String → List String
  | [] => []
  | s :: ss => insertStr s (sortStrings ss)

/-- The response-processing tail of `fetch_models`: collect the ids and
sort them. -/
def fetch_models_ids (j : Json) : List String := sortStrings (extractModels j)

/-- The models response of the C8 example. -/
def exampleModelsJson : Json :=
  .obj [("data", .arr [.obj [("id", .str "gpt-4")], .obj [("id", .str "gpt-3.5")],
    .obj [("bad", .num 1)]])]

/-- The SSE byte stream of the C1 example: two content events and the
terminal event, each closed by the blank-line delimiter. -/
def sseText : String :=
  "data: \x7b\"choices\":[\x7b\"delta\":\x7b\"content\":\"Hello\"\x7d\x7d]\x7d\n\ndata: \x7b\"choices\":[\x7b\"delta\":\x7b\"content\":\" world\"\x7d\x7d]\x7d\n\ndata: [DONE]\n\n"

/-- First event of `sseText`. -/
def ev1 : List Char := "data: \x7b\"choices\":[\x7b\"delta\":\x7b\"content\":\"Hello\"\x7d\x7d]\x7d".data

/-- Payload of the first event. -/
def pl1 : List Char := "\x7b\"choices\":[\x7b\"delta\":\x7b\"content\":\"Hello\"\x7d\x7d]\x7d".data

/-- Second event of `sseText`. -/
def ev2 : List Char := "data: \x7b\"choices\":[\x7b\"delta\":\x7b\"content\":\" world\"\x7d\x7d]\x7d".data

/-- Payload of the second event. -/
def pl2 : List Char := "\x7b\"choices\":[\x7b\"delta\":\x7b\"content\":\" world\"\x7d\x7d]\x7d".data

/-- The single-event stream of the C5 example. -/
def partialText : String :=
  "data: \x7b\"choices\":[\x7b\"delta\":\x7b\"content\":\"partial\"\x7d\x7d]\x7d\n\n"

/-- Payload carrying `"partial"`. -/
def plPartial : List Char := "\x7b\"choices\":[\x7b\"delta\":\x7b\"content\":\"partial\"\x7d\x7d]\x7d".data

/-- Byte prefix of the C3 event, up to the opening quote of the content. -/
def bodyPre : List Nat := strBytes "data: \x7b\"choices\":[\x7b\"delta\":\x7b\"content\":\""

/-- Byte suffix of the C3 event, from the closing quote of the content. -/
def bodyPost : List Nat := strBytes "\"\x7d\x7d]\x7d\n\n"

/-- The whole C3 response body: the content is `"é"` (bytes `C3 A9`), so the
body is valid UTF-8 as a whole. -/
def bytesWhole : List Nat := bodyPre ++ [0xC3, 0xA9] ++ bodyPost

/-- First chunk of the split C3 delivery: cut inside the two-byte `é`. -/
def bytesA : List Nat := bodyPre ++ [0xC3]

/-- Second chunk of the split C3 delivery. -/
def bytesB : List Nat := 0xA9 :: bodyPost

/-- Payload of the whole-delivery C3 event. -/
def plE : List Char := "\x7b\"choices\":[\x7b\"delta\":\x7b\"content\":\"é\"\x7d\x7d]\x7d".data

/-- Payload of the split-delivery C3 event: the `é` has become two
replacement characters. -/
def plR : List Char :=
  "\x7b\"choices\":[\x7b\"delta\":\x7b\"content\":\"".data ++ [fffd, fffd] ++ "\"\x7d\x7d]\x7d".data

/-- A concrete parser covering exactly the payloads used in the example
streams, as serde would parse them; used to discharge the parser hypotheses
of the theorems in closed witnesses. -/
def parseTable (s : List Char) : Option StreamChunk :=
  if s = pl1 then some (mkContentChunk "Hello".data)
  else if s = pl2 then some (mkContentChunk " world".data)
  else if s = plPartial then some (mkContentChunk "partial".data)
  else if s = plE then some (mkContentChunk ['é'])
  else if s = plR then some (mkContentChunk [fffd, fffd])
  else none

/-- A sink that always succeeds (used in witnesses). -/
def sinkOk : List Char → Bool := fun _ => true

/-- A sink that always fails (used in witnesses). -/
def sinkFail : List Char → Bool := fun _ => false

/-! ### Basic lemmas about `stripPre` and `findSub` -/

theorem stripPre_some_append {pre l rest : List Char}
    (h : stripPre pre l = some rest) : l = pre ++ rest := by
  induction pre generalizing l with
  | nil => simp [stripPre] at h; simp [h]
  | cons p ps ih =>
    cases l with
    | nil => simp [stripPre] at h
    | cons c cs =>
      by_cases hc : c = p
      · simp only [stripPre, if_pos hc] at h
        simpa [hc] using congrArg (p :: ·) (ih h)
      · simp [stripPre, hc] at h

theorem stripPre_self_append (pre rest : List Char) :
    stripPre pre (pre ++ rest) = some rest := by
  induction pre with
  | nil => simp [stripPre]
  | cons p ps ih => simp [stripPre, ih]

theorem findSub_zero {pat l : List Char} (h : (stripPre pat l).isSome) :
    findSub l pat = some 0 := by
  cases l with
  | nil => rw [findSub]; simp [h]
  | cons c t => rw [findSub]; simp [h]

theorem findSub_le {l pat : List Char} {i : Nat} (h : findSub l pat = some i) :
    i + pat.length ≤ l.length := by
  induction l generalizing i with
  | nil =>
    rw [findSub] at h
    by_cases hp : (stripPre pat ([] : List Char)).isSome
    · simp only [hp, if_true] at h
      cases pat with
      | nil => simp at h; simp [← h]
      | cons p ps => simp [stripPre] at hp
    · simp [hp] at h
  | cons c t ih =>
    rw [findSub] at h
    by_cases hp : (stripPre pat (c :: t)).isSome
    · simp only [hp, if_true] at h
      rcases Option.isSome_iff_exists.mp hp with ⟨rest, hr⟩
      have hl := stripPre_some_append hr
      simp at h
      subst h
      simp [hl]
    · simp only [hp, if_false] at h
      rcases Option.map_eq_some'.mp h with ⟨j, hj, hji⟩
      have := ih hj
      subst hji
      simp
      omega

theorem findSub_append {l pat : List Char} {p : Nat} (s : List Char)
    (h : findSub l pat = some p) : findSub (l ++ s) pat = some p := by
  induction l generalizing p with
  | nil =>
    rw [findSub] at h
    by_cases hp : (stripPre pat ([] : List Char)).isSome
    · simp only [hp, if_true] at h
      cases pat with
      | nil =>
        simp at h
        subst h
        exact findSub_zero (by simp [stripPre])
      | cons a as => simp [stripPre] at hp
    · simp [hp] at h
  | cons c t ih =>
    rw [findSub] at h
    by_cases hp : (stripPre pat (c :: t)).isSome
    · simp only [hp, if_true] at h
      simp at h
      subst h
      rcases Option.isSome_iff_exists.mp hp with ⟨rest, hr⟩
      have hl := stripPre_some_append hr
      rw [List.cons_append, findSub]
      have hps : stripPre pat (c :: (t ++ s)) = some (rest ++ s) := by
        have : c :: (t ++ s) = pat ++ (rest ++ s) := by
          rw [← List.append_assoc, ← hl]
          simp
        rw [this]
        exact stripPre_self_append ..
      simp [hps]
    · simp only [hp, if_false] at h
      rcases Option.map_eq_some'.mp h with ⟨q, hq, hqp⟩
      have hlen := findSub_le hq
      have hps2 : stripPre pat (c :: (t ++ s)) = none := by
        cases hcc : stripPre pat (c :: (t ++ s)) with
        | none => rfl
        | some r =>
          exfalso
          have heq := stripPre_some_append hcc
          have hple : pat.length ≤ t.length + 1 := by omega
          have htake2 : (c :: t).take pat.length = pat := by
            have h1 : ((c :: t) ++ s).take pat.length = pat := by
              have : ((c :: t) ++ s) = pat ++ r := by simpa using heq
              rw [this, List.take_append_of_le_length (le_refl _), List.take_length]
            rwa [List.take_append_of_le_length (by simpa using hple)] at h1
          have hsplit := (List.take_append_drop pat.length (c :: t)).symm
          rw [htake2] at hsplit
          have h2 := stripPre_self_append pat (List.drop pat.length (c :: t))
          rw [← hsplit] at h2
          simp [h2] at hp
      rw [List.cons_append, findSub]
      rw [hps2]
      simp only [Option.isSome_none, Bool.false_eq_true, if_false]
      rw [ih hq]
      simp [hqp]

theorem occursIn_findSub_isSome {pat l : List Char} (h : occursIn pat l) :
    (findSub l pat).isSome := by
  rcases h with ⟨pre, suf, rfl⟩
  induction pre with
  | nil =>
    rw [List.nil_append, @findSub_zero pat (pat ++ suf) (by
      rw [stripPre_self_append]; simp)]
    simp
  | cons c cs ih =>
    simp only [List.cons_append, List.append_assoc] at ih ⊢
    rw [findSub]
    by_cases hp : (stripPre pat (c :: (cs ++ (pat ++ suf)))).isSome
    · simp [hp]
    · simp only [hp, if_false]
      rcases Option.isSome_iff_exists.mp ih with ⟨q, hq⟩
      rw [hq]
      simp

theorem not_occursIn_of_findSub_none {pat l : List Char}
    (h : findSub l pat = none) : ¬ occursIn pat l := by
  intro hocc
  have := occursIn_findSub_isSome hocc
  rw [h] at this
  simp at this

theorem occursIn_trans {a b c : List Char} (h1 : occursIn a b)
    (h2 : occursIn b c) : occursIn a c := by
  rcases h1 with ⟨p1, s1, rfl⟩
  rcases h2 with ⟨p2, s2, rfl⟩
  exact ⟨p2 ++ p1, s1 ++ s2, by simp⟩

theorem occursIn_of_take {pat l : List Char} {n : Nat}
    (h : occursIn pat (l.take n)) : occursIn pat l := by
  rcases h with ⟨pre, suf, hps⟩
  refine ⟨pre, suf ++ l.drop n, ?_⟩
  conv_lhs => rw [← List.take_append_drop n l]
  rw [hps]
  simp

theorem occursIn_of_drop {pat l : List Char} {n : Nat}
    (h : occursIn pat (l.drop n)) : occursIn pat l := by
  rcases h with ⟨pre, suf, hps⟩
  refine ⟨l.take n ++ pre, suf, ?_⟩
  conv_lhs => rw [← List.take_append_drop n l]
  rw [hps]
  simp

/-! ### The buffer drain: fuel irrelevance and step lemmas -/

theorem procBufferF_mono (parse : List Char → Option StreamChunk)
    (sink : List Char → Bool) :
    ∀ n m buf full em, buf.length ≤ n → buf.length ≤ m →
      procBufferF parse sink n buf full em = procBufferF parse sink m buf full em := by
  intro n
  induction n with
  | zero =>
    intro m buf full em hn _
    have hb : buf = [] := List.length_eq_zero.mp (Nat.le_zero.mp hn)
    subst hb
    cases m with
    | zero => rfl
    | succ m' =>
      rw [procBufferF, procBufferF]
      rw [show findSub [] nlnl = none from by decide]
  | succ n' ih =>
    intro m buf full em hn hm
    cases m with
    | zero =>
      have hb : buf = [] := List.length_eq_zero.mp (Nat.le_zero.mp hm)
      subst hb
      rw [procBufferF, procBufferF]
      rw [show findSub [] nlnl = none from by decide]
    | succ m' =>
      rw [procBufferF, procBufferF]
      cases hf : findSub buf nlnl with
      | none => simp only [hf]
      | some pos =>
        simp only [hf]
        cases hl : procLines parse sink (rustLines (buf.take pos)) full em with
        | done f e => simp only [hl]
        | next f e =>
          simp only [hl]
          have hle := findSub_le hf
          have h2 : nlnl.length = 2 := rfl
          apply ih
          · simp only [List.length_drop]; omega
          · simp only [List.length_drop]; omega

theorem procBuffer_none (parse : List Char → Option StreamChunk)
    (sink : List Char → Bool) {buf full : List Char} {em : List (List Char)}
    (h : findSub buf nlnl = none) :
    procBuffer parse sink buf full em = .cont buf full em := by
  unfold procBuffer
  cases hb : buf.length with
  | zero => rw [procBufferF]
  | succ k => rw [procBufferF]; simp only [h]

theorem procBuffer_done_step (parse : List Char → Option StreamChunk)
    (sink : List Char → Bool) {buf full : List Char} {em : List (List Char)}
    {pos : Nat} {f : List Char} {e : List (List Char)}
    (h : findSub buf nlnl = some pos)
    (hl : procLines parse sink (rustLines (buf.take pos)) full em = .done f e) :
    procBuffer parse sink buf full em = .done f e := by
  unfold procBuffer
  have hle := findSub_le h
  have h2 : nlnl.length = 2 := rfl
  cases hb : buf.length with
  | zero => omega
  | succ k => rw [procBufferF]; simp only [h, hl]

theorem procBuffer_cont_step (parse : List Char → Option StreamChunk)
    (sink : List Char → Bool) {buf full : List Char} {em : List (List Char)}
    {pos : Nat} {f : List Char} {e : List (List Char)}
    (h : findSub buf nlnl = some pos)
    (hl : procLines parse sink (rustLines (buf.take pos)) full em = .next f e) :
    procBuffer parse sink buf full em =
      procBuffer parse sink (buf.drop (pos + 2)) f e := by
  unfold procBuffer
  have hle := findSub_le h
  have h2 : nlnl.length = 2 := rfl
  cases hb : buf.length with
  | zero => omega
  | succ k =>
    rw [procBufferF]
    simp only [h, hl]
    apply procBufferF_mono
    · simp only [List.length_drop]; omega
    · exact le_refl _

/-! ### Draining is compatible with appending further input -/

theorem procBuffer_append (parse : List Char → Option StreamChunk)
    (sink : List Char → Bool) (s : List Char) :
    ∀ n buf, buf.length ≤ n → ∀ full em,
      (∀ f e, procBuffer parse sink buf full em = .done f e →
        procBuffer parse sink (buf ++ s) full em = .done f e) ∧
      (∀ b f e, procBuffer parse sink buf full em = .cont b f e →
        procBuffer parse sink (buf ++ s) full em =
          procBuffer parse sink (b ++ s) f e) := by
  intro n
  induction n with
  | zero =>
    intro buf hn full em
    have hb : buf = [] := List.length_eq_zero.mp (Nat.le_zero.mp hn)
    subst hb
    have h0 : procBuffer parse sink [] full em = .cont [] full em :=
      procBuffer_none parse sink (by decide)
    constructor
    · intro f e hd; rw [h0] at hd; cases hd
    · intro b f e hc; rw [h0] at hc; cases hc; rfl
  | succ n' ih =>
    intro buf hn full em
    cases hf : findSub buf nlnl with
    | none =>
      have h0 := @procBuffer_none parse sink buf full em hf
      constructor
      · intro f e hd; rw [h0] at hd; cases hd
      · intro b f e hc; rw [h0] at hc; cases hc; rfl
    | some pos =>
      have hle := findSub_le hf
      have h2 : nlnl.length = 2 := rfl
      have hfA : findSub (buf ++ s) nlnl = some pos := findSub_append s hf
      have htakeA : (buf ++ s).take pos = buf.take pos :=
        List.take_append_of_le_length (by omega)
      have hdropA : (buf ++ s).drop (pos + 2) = buf.drop (pos + 2) ++ s :=
        List.drop_append_of_le_length (by omega)
      cases hl : procLines parse sink (rustLines (buf.take pos)) full em with
      | done f' e' =>
        have hD := procBuffer_done_step parse sink hf hl
        have hDA : procBuffer parse sink (buf ++ s) full em = .done f' e' := by
          apply procBuffer_done_step parse sink hfA
          rw [htakeA]; exact hl
        constructor
        · intro f e hd; rw [hD] at hd; cases hd; exact hDA
        · intro b f e hc; rw [hD] at hc; cases hc
      | next f' e' =>
        have hC := procBuffer_cont_step parse sink hf hl
        have hCA : procBuffer parse sink (buf ++ s) full em =
            procBuffer parse sink (buf.drop (pos + 2) ++ s) f' e' := by
          have hstep := procBuffer_cont_step parse sink hfA (by rw [htakeA]; exact hl)
          rw [hdropA] at hstep; exact hstep
        have hlen : (buf.drop (pos + 2)).length ≤ n' := by
          simp only [List.length_drop]; omega
        have IH := ih (buf.drop (pos + 2)) hlen f' e'
        constructor
        · intro f e hd
          rw [hC] at hd
          rw [hCA]
          exact IH.1 f e hd
        · intro b f e hc
          rw [hC] at hc
          rw [hCA]
          exact IH.2 b f e hc

theorem procBuffer_cont_no_delim (parse : List Char → Option StreamChunk)
    (sink : List Char → Bool) :
    ∀ n buf, buf.length ≤ n → ∀ full em b f e,
      procBuffer parse sink buf full em = .cont b f e →
      findSub b nlnl = none := by
  intro n
  induction n with
  | zero =>
    intro buf hn full em b f e hc
    have hb : buf = [] := List.length_eq_zero.mp (Nat.le_zero.mp hn)
    subst hb
    rw [procBuffer_none parse sink (by decide)] at hc
    cases hc
    decide
  | succ n' ih =>
    intro buf hn full em b f e hc
    cases hf : findSub buf nlnl with
    | none =>
      rw [procBuffer_none parse sink hf] at hc
      cases hc
      exact hf
    | some pos =>
      have hle := findSub_le hf
      have h2 : nlnl.length = 2 := rfl
      cases hl : procLines parse sink (rustLines (buf.take pos)) full em with
      | done f' e' =>
        rw [procBuffer_done_step parse sink hf hl] at hc
        cases hc
      | next f' e' =>
        rw [procBuffer_cont_step parse sink hf hl] at hc
        have hlen : (buf.drop (pos + 2)).length ≤ n' := by
          simp only [List.length_drop]; omega
        exact ih (buf.drop (pos + 2)) hlen f' e' b f e hc

/-- The whole read loop equals one drain of the concatenated decoded input:
chunk boundaries are invisible to the event reassembly (for the text that
each chunk decodes to). -/
theorem runChunks_drain (parse : List Char → Option StreamChunk)
    (sink : List Char → Bool) :
    ∀ cs buf full em, findSub buf nlnl = none →
      runChunks parse sink cs buf full em =
        match procBuffer parse sink (buf ++ decodeJoin cs) full em with
        | .done f e => RunOut.done f e
        | .cont _ f e => RunOut.eof f e := by
  intro cs
  induction cs with
  | nil =>
    intro buf full em h
    simp only [decodeJoin, List.map_nil, List.flatten_nil, List.append_nil]
    rw [procBuffer_none parse sink h]
    rw [runChunks]
  | cons c cs' ih =>
    intro buf full em h
    rw [runChunks]
    have hassoc : buf ++ decodeJoin (c :: cs') = (buf ++ utf8Lossy c) ++ decodeJoin cs' := by
      simp [decodeJoin, List.append_assoc]
    rw [hassoc]
    cases hb : procBuffer parse sink (buf ++ utf8Lossy c) full em with
    | done f e =>
      simp only [hb]
      have hD := (procBuffer_append parse sink (decodeJoin cs')
        (buf ++ utf8Lossy c).length _ le_rfl full em).1 f e hb
      rw [hD]
    | cont b f e =>
      simp only [hb]
      have hA := (procBuffer_append parse sink (decodeJoin cs')
        (buf ++ utf8Lossy c).length _ le_rfl full em).2 b f e hb
      rw [hA]
      have hbn := procBuffer_cont_no_delim parse sink
        (buf ++ utf8Lossy c).length _ le_rfl full em b f e hb
      exact ih b f e hbn

/-! ### ASCII byte streams decode chunk-independently -/

theorem utf8Lossy_ascii_cons {b : Nat} (rest : List Nat) (h : b < 0x80) :
    utf8Lossy (b :: rest) = Char.ofNat b :: utf8Lossy rest := by
  rw [utf8Lossy.eq_def]
  simp [h]

theorem utf8Lossy_ascii : ∀ l : List Nat, (∀ b ∈ l, b < 0x80) →
    utf8Lossy l = l.map (fun b => Char.ofNat b) := by
  intro l
  induction l with
  | nil => intro _; rfl
  | cons b rest ih =>
    intro h
    rw [utf8Lossy_ascii_cons rest (h b (by simp))]
    rw [ih (fun x hx => h x (by simp [hx]))]
    rfl

theorem decodeJoin_ascii {chunks : List (List Nat)} {B : List Nat}
    (hj : chunks.flatten = B) (hA : ∀ b ∈ B, b < 0x80) :
    decodeJoin chunks = B.map (fun b => Char.ofNat b) := by
  subst hj
  unfold decodeJoin
  rw [List.map_flatten]
  congr 1
  apply List.map_congr_left
  intro c hc
  exact utf8Lossy_ascii c (fun b hb => hA b (List.mem_flatten.mpr ⟨c, hc, hb⟩))

theorem map_ofNat_strBytes (s : String) :
    (strBytes s).map (fun b => Char.ofNat b) = s.data := by
  unfold strBytes
  rw [List.map_map]
  have : (fun b => Char.ofNat b) ∘ Char.toNat = id := by
    funext c
    simp [Char.ofNat_toNat]
  rw [this, List.map_id]

/-! ### The sink's result never influences the run -/

theorem procLine_sink (parse : List Char → Option StreamChunk)
    (s1 s2 : List Char → Bool) (full : List Char) (em : List (List Char))
    (line : List Char) :
    procLine parse s1 full em line = procLine parse s2 full em line := rfl

theorem procLines_sink (parse : List Char → Option StreamChunk)
    (s1 s2 : List Char → Bool) :
    ∀ ls full em, procLines parse s1 ls full em = procLines parse s2 ls full em := by
  intro ls
  induction ls with
  | nil => intro full em; rfl
  | cons line ls' ih =>
    intro full em
    rw [procLines, procLines, procLine_sink parse s1 s2]
    cases procLine parse s2 full em line with
    | done f e => rfl
    | next f e => exact ih f e

theorem procBufferF_sink (parse : List Char → Option StreamChunk)
    (s1 s2 : List Char → Bool) :
    ∀ fuel buf full em,
      procBufferF parse s1 fuel buf full em = procBufferF parse s2 fuel buf full em := by
  intro fuel
  induction fuel with
  | zero => intro buf full em; rfl
  | succ fuel' ih =>
    intro buf full em
    rw [procBufferF, procBufferF]
    cases hf : findSub buf nlnl with
    | none => simp only
    | some pos =>
      simp only [procLines_sink parse s1 s2]
      cases procLines parse s2 (rustLines (buf.take pos)) full em with
      | done f e => simp only
      | next f e => simp only; exact ih ..

theorem procBuffer_sink (parse : List Char → Option StreamChunk)
    (s1 s2 : List Char → Bool) (buf full : List Char) (em : List (List Char)) :
    procBuffer parse s1 buf full em = procBuffer parse s2 buf full em :=
  procBufferF_sink parse s1 s2 buf.length buf full em

theorem runChunks_sink (parse : List Char → Option StreamChunk)
    (s1 s2 : List Char → Bool) :
    ∀ cs buf full em, runChunks parse s1 cs buf full em = runChunks parse s2 cs buf full em := by
  intro cs
  induction cs with
  | nil => intro buf full em; rfl
  | cons c cs' ih =>
    intro buf full em
    rw [runChunks, runChunks, procBuffer_sink parse s1 s2]
    cases procBuffer parse s2 (buf ++ utf8Lossy c) full em with
    | done f e => rfl
    | cont b f e => exact ih ..

/-! ### The accumulator is the concatenation of the emitted fragments -/

theorem procLine_state (parse : List Char → Option StreamChunk)
    (sink : List Char → Bool) (full : List Char) (em : List (List Char))
    (line : List Char) :
    procLine parse sink full em line = .done full em ∨
    procLine parse sink full em line = .next full em ∨
    ∃ c, procLine parse sink full em line = .next (full ++ c) (em ++ [c]) := by
  unfold procLine
  split
  · right; left; rfl
  · split
    · left; rfl
    · split
      · right; left; rfl
      · split
        · right; left; rfl
        · split
          · right; left; rfl
          · right; right; exact ⟨_, rfl⟩

theorem procLines_inv (parse : List Char → Option StreamChunk)
    (sink : List Char → Bool) :
    ∀ ls full em, full = em.flatten →
      (procLines parse sink ls full em).fullE =
        (procLines parse sink ls full em).emE.flatten := by
  intro ls
  induction ls with
  | nil =>
    intro full em h
    rw [procLines]
    simpa [EvOut.fullE, EvOut.emE] using h
  | cons line ls' ih =>
    intro full em h
    rw [procLines]
    rcases procLine_state parse sink full em line with h1 | h1 | ⟨c, h1⟩
    · rw [h1]
      simpa [EvOut.fullE, EvOut.emE] using h
    · rw [h1]
      exact ih full em h
    · rw [h1]
      exact ih (full ++ c) (em ++ [c]) (by simp [h])

theorem procBuffer_inv (parse : List Char → Option StreamChunk)
    (sink : List Char → Bool) :
    ∀ n buf, buf.length ≤ n → ∀ full em, full = em.flatten →
      (procBuffer parse sink buf full em).fullB =
        (procBuffer parse sink buf full em).emB.flatten := by
  intro n
  induction n with
  | zero =>
    intro buf hn full em h
    have hb : buf = [] := List.length_eq_zero.mp (Nat.le_zero.mp hn)
    subst hb
    rw [procBuffer_none parse sink (by decide)]
    simpa [BufOut.fullB, BufOut.emB] using h
  | succ n' ih =>
    intro buf hn full em h
    cases hf : findSub buf nlnl with
    | none =>
      rw [procBuffer_none parse sink hf]
      simpa [BufOut.fullB, BufOut.emB] using h
    | some pos =>
      have hle := findSub_le hf
      have h2 : nlnl.length = 2 := rfl
      have hev := procLines_inv parse sink (rustLines (buf.take pos)) full em h
      cases hl : procLines parse sink (rustLines (buf.take pos)) full em with
      | done f' e' =>
        rw [procBuffer_done_step parse sink hf hl]
        rw [hl] at hev
        simpa [EvOut.fullE, EvOut.emE, BufOut.fullB, BufOut.emB] using hev
      | next f' e' =>
        rw [procBuffer_cont_step parse sink hf hl]
        rw [hl] at hev
        simp only [EvOut.fullE, EvOut.emE] at hev
        exact ih (buf.drop (pos + 2)) (by simp only [List.length_drop]; omega) f' e' hev

theorem runChunks_inv (parse : List Char → Option StreamChunk)
    (sink : List Char → Bool) :
    ∀ cs buf full em, full = em.flatten →
      (runChunks parse sink cs buf full em).full =
        (runChunks parse sink cs buf full em).emitted.flatten := by
  intro cs
  induction cs with
  | nil =>
    intro buf full em h
    rw [runChunks]
    simpa [RunOut.full, RunOut.emitted] using h
  | cons c cs' ih =>
    intro buf full em h
    rw [runChunks]
    have hbuf := procBuffer_inv parse sink (buf ++ utf8Lossy c).length
      (buf ++ utf8Lossy c) le_rfl full em h
    cases hb : procBuffer parse sink (buf ++ utf8Lossy c) full em with
    | done f e =>
      rw [hb] at hbuf
      simpa [BufOut.fullB, BufOut.emB, RunOut.full, RunOut.emitted] using hbuf
    | cont b f e =>
      rw [hb] at hbuf
      simp only [BufOut.fullB, BufOut.emB] at hbuf
      exact ih b f e hbuf

/-! ### Only the literal line `data: [DONE]` can terminate the stream -/

theorem procLine_done_imp (parse : List Char → Option StreamChunk)
    (sink : List Char → Bool) (full : List Char) (em : List (List Char))
    (line : List Char) {f : List Char} {e : List (List Char)} :
    procLine parse sink full em line = .done f e → line = dataDone := by
  unfold procLine
  split
  · intro h; cases h
  · next data hm =>
    split
    · next hd =>
      intro _
      subst hd
      have hl := stripPre_some_append hm
      rw [hl]
      rfl
    · split
      · intro h; cases h
      · split
        · intro h; cases h
        · split
          · intro h; cases h
          · intro h; cases h

theorem procLines_done_mem (parse : List Char → Option StreamChunk)
    (sink : List Char → Bool) :
    ∀ ls full em f e, procLines parse sink ls full em = .done f e →
      dataDone ∈ ls := by
  intro ls
  induction ls with
  | nil =>
    intro full em f e h
    rw [procLines] at h
    cases h
  | cons line ls' ih =>
    intro full em f e h
    rw [procLines] at h
    cases hpl : procLine parse sink full em line with
    | done f' e' =>
      have := procLine_done_imp parse sink full em line hpl
      subst this
      exact List.mem_cons_self _ _
    | next f' e' =>
      rw [hpl] at h
      exact List.mem_cons_of_mem _ (ih f' e' f e h)

theorem procLines_next_of_no_done (parse : List Char → Option StreamChunk)
    (sink : List Char → Bool) :
    ∀ ls full em, dataDone ∉ ls →
      ∃ f e, procLines parse sink ls full em = .next f e := by
  intro ls
  induction ls with
  | nil =>
    intro full em _
    exact ⟨full, em, by rw [procLines]⟩
  | cons line ls' ih =>
    intro full em h
    rw [procLines]
    cases hpl : procLine parse sink full em line with
    | done f' e' =>
      exfalso
      apply h
      rw [procLine_done_imp parse sink full em line hpl]
      exact List.mem_cons_self _ _
    | next f' e' =>
      exact ih f' e' (fun hmem => h (List.mem_cons_of_mem _ hmem))

/-! ### Lines of an event are substrings of the event -/

theorem splitNl_structure : ∀ e : List Char, ∃ s0 ss, splitNl e = s0 :: ss ∧
    (∃ suf, e = s0 ++ suf) ∧ ∀ t ∈ ss, occursIn t e := by
  intro e
  induction e with
  | nil => exact ⟨[], [], rfl, ⟨[], rfl⟩, by simp⟩
  | cons c rest ih =>
    rcases ih with ⟨s0, ss, hsplit, ⟨suf, hpre⟩, hmem⟩
    by_cases hc : c = '\n'
    · refine ⟨[], splitNl rest, ?_, ⟨c :: rest, rfl⟩, ?_⟩
      · rw [splitNl, if_pos hc]
      · intro t ht
        rw [hsplit] at ht
        rcases List.mem_cons.mp ht with rfl | ht'
        · exact ⟨[c], suf, by rw [hpre]; simp⟩
        · rcases hmem t ht' with ⟨p, s, hps⟩
          exact ⟨c :: p, s, by rw [hps]; simp⟩
    · refine ⟨c :: s0, ss, ?_, ⟨suf, by rw [hpre]; simp⟩, ?_⟩
      · rw [splitNl, if_neg hc, hsplit]
      · intro t ht
        rcases hmem t ht with ⟨p, s, hps⟩
        exact ⟨c :: p, s, by rw [hps]; simp⟩

theorem mem_splitNl_occursIn {s e : List Char} (h : s ∈ splitNl e) :
    occursIn s e := by
  rcases splitNl_structure e with ⟨s0, ss, hsp, ⟨suf, hpre⟩, hms⟩
  rw [hsp] at h
  rcases List.mem_cons.mp h with rfl | h'
  · exact ⟨[], suf, by simp [hpre]⟩
  · exact hms s h'

theorem stripCr_occursIn (s : List Char) : occursIn (stripCr s) s := by
  unfold stripCr
  split
  · next hlast =>
    cases hrev : s.reverse with
    | nil =>
      exfalso
      have : s = [] := by simpa using congrArg List.reverse hrev
      subst this
      simp at hlast
    | cons y ys =>
      have hl : s = ys.reverse ++ [y] := by
        have := congrArg List.reverse hrev
        simpa using this
      have hy : y = '\r' := by
        rw [hl, List.getLast?_concat] at hlast
        exact Option.some.inj hlast
      subst hy
      rw [hl, List.dropLast_concat]
      exact ⟨[], ['\r'], by simp⟩
  · exact ⟨[], [], by simp⟩

theorem mem_of_getLast {α : Type} {l : List α} {x : α}
    (h : l.getLast? = some x) : x ∈ l := by
  cases hrev : l.reverse with
  | nil =>
    exfalso
    have : l = [] := by simpa using congrArg List.reverse hrev
    subst this
    simp at h
  | cons y ys =>
    have hl : l = ys.reverse ++ [y] := by
      have := congrArg List.reverse hrev
      simpa using this
    rw [hl, List.getLast?_concat] at h
    rw [hl]
    simp at h
    simp [h]

theorem mem_rustLines_occursIn {line ev : List Char}
    (h : line ∈ rustLines ev) : occursIn line ev := by
  unfold rustLines at h
  rcases List.mem_append.mp h with h1 | h2
  · rcases List.mem_map.mp h1 with ⟨s, hs, rfl⟩
    have hmem : s ∈ splitNl ev := (List.dropLast_sublist _).subset hs
    exact occursIn_trans (stripCr_occursIn s) (mem_splitNl_occursIn hmem)
  · cases hlast : (splitNl ev).getLast? with
    | none => rw [hlast] at h2; simp at h2
    | some last =>
      rw [hlast] at h2
      have hmem : last ∈ splitNl ev := mem_of_getLast hlast
      cases last with
      | nil => simp at h2
      | cons a rest =>
        simp at h2
        subst h2
        exact mem_splitNl_occursIn hmem

/-! ### Without `data: [DONE]` in the input the loop runs to end of stream -/

theorem procBuffer_no_done (parse : List Char → Option StreamChunk)
    (sink : List Char → Bool) :
    ∀ n buf, buf.length ≤ n → ¬ occursIn dataDone buf → ∀ full em,
      ∃ b f e, procBuffer parse sink buf full em = .cont b f e := by
  intro n
  induction n with
  | zero =>
    intro buf hn _ full em
    have hb : buf = [] := List.length_eq_zero.mp (Nat.le_zero.mp hn)
    subst hb
    exact ⟨[], full, em, procBuffer_none parse sink (by decide)⟩
  | succ n' ih =>
    intro buf hn hocc full em
    cases hf : findSub buf nlnl with
    | none => exact ⟨buf, full, em, procBuffer_none parse sink hf⟩
    | some pos =>
      have hle := findSub_le hf
      have h2 : nlnl.length = 2 := rfl
      have hnd : dataDone ∉ rustLines (buf.take pos) := by
        intro hmem
        exact hocc (occursIn_of_take (mem_rustLines_occursIn hmem))
      obtain ⟨f, e, hl⟩ := procLines_next_of_no_done parse sink
        (rustLines (buf.take pos)) full em hnd
      rw [procBuffer_cont_step parse sink hf hl]
      exact ih (buf.drop (pos + 2)) (by simp only [List.length_drop]; omega)
        (fun hx => hocc (occursIn_of_drop hx)) f e

theorem runChunks_no_done (parse : List Char → Option StreamChunk)
    (sink : List Char → Bool) (chunks : List (List Nat))
    (h : findSub (decodeJoin chunks) dataDone = none) :
    ∃ f e, runChunks parse sink chunks [] [] [] = .eof f e := by
  rw [runChunks_drain parse sink chunks [] [] [] (by decide)]
  simp only [List.nil_append]
  have hno := not_occursIn_of_findSub_none h
  obtain ⟨b, f, e, hb⟩ := procBuffer_no_done parse sink
    (decodeJoin chunks).length (decodeJoin chunks) le_rfl hno [] []
  rw [hb]
  exact ⟨f, e, rfl⟩

/-! ### Processing a single-line event -/

theorem procLines_single_content (parse : List Char → Option StreamChunk)
    (sink : List Char → Bool) {ev payload content : List Char}
    (full : List Char) (em : List (List Char))
    (hsp : stripPre dataMarker ev = some payload) (hne : payload ≠ doneTok)
    (hp : parse payload = some (mkContentChunk content)) :
    procLines parse sink [ev] full em =
      .next (full ++ content) (em ++ [content]) := by
  rw [procLines]
  have hline : procLine parse sink full em ev =
      .next (full ++ content) (em ++ [content]) := by
    unfold procLine
    simp only [hsp, if_neg hne, hp, mkContentChunk, List.head?]
  simp only [hline]
  rw [procLines]

theorem procLines_single_done (parse : List Char → Option StreamChunk)
    (sink : List Char → Bool) {ev : List Char}
    (full : List Char) (em : List (List Char))
    (hsp : stripPre dataMarker ev = some doneTok) :
    procLines parse sink [ev] full em = .done full em := by
  rw [procLines]
  have hline : procLine parse sink full em ev = .done full em := by
    unfold procLine
    simp [hsp]
  simp only [hline]

/-! ### Claim theorems -/

/-- C1: for every way of splitting the SSE byte stream consisting of the three
events (content `"Hello"`, content `" world"`, `[DONE]`) into network chunks,
`stream_chat_completion`'s read loop emits the events in their original
order, returns the full text `"Hello world"` (the `[DONE]` early return), and
the sink receives exactly the two fragments `"Hello"` then `" world"`, in
that order — including splits inside the `data: ` marker or inside the
double-newline delimiter.  The parser hypotheses pin down serde's behaviour
on the two content payloads. -/
theorem claim1_chunking_invariance (parse : List Char → Option StreamChunk)
    (sink : List Char → Bool)
    (h1 : parse pl1 = some (mkContentChunk "Hello".data))
    (h2 : parse pl2 = some (mkContentChunk " world".data))
    (chunks : List (List Nat)) (hjoin : chunks.flatten = strBytes sseText) :
    runChunks parse sink chunks [] [] [] =
      .done "Hello world".data ["Hello".data, " world".data] := by
  have hascii : ∀ b ∈ strBytes sseText, b < 0x80 := by decide
  have hdec : decodeJoin chunks = sseText.data := by
    rw [decodeJoin_ascii hjoin hascii, map_ofNat_strBytes]
  rw [runChunks_drain parse sink chunks [] [] [] (by decide)]
  simp only [List.nil_append, hdec]
  have hfind1 : findSub sseText.data nlnl = some 49 := by decide
  have hlines1 : procLines parse sink (rustLines (sseText.data.take 49)) [] [] =
      .next "Hello".data ["Hello".data] := by
    rw [show rustLines (sseText.data.take 49) = [ev1] from by decide]
    rw [procLines_single_content parse sink [] []
      (show stripPre dataMarker ev1 = some pl1 from by decide) (by decide) h1]
    decide
  have hfind2 : findSub (sseText.data.drop (49 + 2)) nlnl = some 50 := by decide
  have hlines2 : procLines parse sink
      (rustLines ((sseText.data.drop (49 + 2)).take 50)) "Hello".data ["Hello".data] =
      .next "Hello world".data ["Hello".data, " world".data] := by
    rw [show rustLines ((sseText.data.drop (49 + 2)).take 50) = [ev2] from by decide]
    rw [procLines_single_content parse sink "Hello".data ["Hello".data]
      (show stripPre dataMarker ev2 = some pl2 from by decide) (by decide) h2]
    decide
  have hfind3 : findSub ((sseText.data.drop (49 + 2)).drop (50 + 2)) nlnl = some 12 := by
    decide
  have hlines3 : procLines parse sink
      (rustLines ((((sseText.data.drop (49 + 2)).drop (50 + 2))).take 12))
      "Hello world".data ["Hello".data, " world".data] =
      .done "Hello world".data ["Hello".data, " world".data] := by
    rw [show rustLines ((((sseText.data.drop (49 + 2)).drop (50 + 2))).take 12) =
      [dataDone] from by decide]
    exact procLines_single_done parse sink _ _ (by decide)
  have hP : procBuffer parse sink sseText.data [] [] =
      .done "Hello world".data ["Hello".data, " world".data] := by
    rw [procBuffer_cont_step parse sink hfind1 hlines1]
    rw [procBuffer_cont_step parse sink hfind2 hlines2]
    exact procBuffer_done_step parse sink hfind3 hlines3
  rw [hP]

/-- C1 witness: the whole stream delivered as one chunk, with the concrete
parser and sink. -/
theorem claim1_chunking_invariance_witness :
    parseTable pl1 = some (mkContentChunk "Hello".data) ∧
    parseTable pl2 = some (mkContentChunk " world".data) ∧
    ([strBytes sseText] : List (List Nat)).flatten = strBytes sseText ∧
    runChunks parseTable sinkOk [strBytes sseText] [] [] [] =
      .done "Hello world".data ["Hello".data, " world".data] :=
  ⟨by decide, by decide, by simp,
    claim1_chunking_invariance parseTable sinkOk (by decide) (by decide)
      [strBytes sseText] (by simp)⟩

/-- C2: the accumulator always equals the concatenation, in arrival order, of
the fragments handed to the sink (each forwarded exactly when appended, hence
at most once, in order), and the outcome of the sink notification — success
or failure — influences neither the accumulator nor the emitted sequence nor
termination of the loop.  Stated from any loop state whose accumulator
already equals the concatenation of its emitted fragments, so it holds at
every return point of the read loop. -/
theorem claim2_accumulator_invariant (parse : List Char → Option StreamChunk)
    (sink1 sink2 : List Char → Bool) (chunks : List (List Nat))
    (buf full : List Char) (em : List (List Char)) (hinv : full = em.flatten) :
    runChunks parse sink1 chunks buf full em =
      runChunks parse sink2 chunks buf full em ∧
    (runChunks parse sink1 chunks buf full em).full =
      (runChunks parse sink1 chunks buf full em).emitted.flatten :=
  ⟨runChunks_sink parse sink1 sink2 chunks buf full em,
    runChunks_inv parse sink1 chunks buf full em hinv⟩

/-- C2 witness: the example stream, with a succeeding and a failing sink. -/
theorem claim2_accumulator_invariant_witness :
    ([] : List Char) = ([] : List (List Char)).flatten ∧
    (runChunks parseTable sinkOk [strBytes sseText] [] [] [] =
      runChunks parseTable sinkFail [strBytes sseText] [] [] [] ∧
    (runChunks parseTable sinkOk [strBytes sseText] [] [] []).full =
      (runChunks parseTable sinkOk [strBytes sseText] [] [] []).emitted.flatten) :=
  ⟨rfl, claim2_accumulator_invariant parseTable sinkOk sinkFail
    [strBytes sseText] [] [] [] rfl⟩

/-- C4: a non-success HTTP status makes `stream_chat_completion` fail, before
any stream consumption, with the message
`API error {status}: {body}` (body empty when unreadable), so the message
contains both the rendered status and the body text, and the sink receives
zero fragment notifications; in particular a 401 with body `unauthorized`
produces `API error 401 Unauthorized: unauthorized`. -/
theorem claim4_api_error (parse : List Char → Option StreamChunk)
    (sink : List Char → Bool) (resp : HttpResponse)
    (h : ¬ isSuccess resp.statusCode) :
    (stream_chat_completion parse sink resp =
      (.error ("API error ".data ++ resp.statusText ++ ": ".data ++
        resp.bodyText.getD []), []) ∧
     occursIn resp.statusText ("API error ".data ++ resp.statusText ++
       ": ".data ++ resp.bodyText.getD []) ∧
     occursIn (resp.bodyText.getD []) ("API error ".data ++ resp.statusText ++
       ": ".data ++ resp.bodyText.getD [])) ∧
    stream_chat_completion parse sink
      ⟨401, "401 Unauthorized".data, some "unauthorized".data, [strBytes sseText]⟩ =
      (.error "API error 401 Unauthorized: unauthorized".data, []) := by
  have hgen : ∀ r : HttpResponse, ¬ isSuccess r.statusCode →
      stream_chat_completion parse sink r =
        (.error ("API error ".data ++ r.statusText ++ ": ".data ++
          r.bodyText.getD []), []) := by
    intro r hr
    unfold stream_chat_completion
    rw [if_neg hr]
  constructor
  · refine ⟨hgen resp h, ?_, ?_⟩
    · exact ⟨"API error ".data, ": ".data ++ resp.bodyText.getD [], by simp⟩
    · exact ⟨"API error ".data ++ resp.statusText ++ ": ".data, [], by simp⟩
  · rw [hgen ⟨401, "401 Unauthorized".data, some "unauthorized".data,
      [strBytes sseText]⟩ (by decide)]
    have hmsg : ("API error ".data ++ "401 Unauthorized".data ++ ": ".data ++
        (some "unauthorized".data).getD [] : List Char) =
        "API error 401 Unauthorized: unauthorized".data := by decide
    rw [hmsg]

/-- C4 witness: the 401 response with readable body `unauthorized`. -/
theorem claim4_api_error_witness :
    ¬ isSuccess 401 ∧
    stream_chat_completion parseTable sinkOk
      ⟨401, "401 Unauthorized".data, some "unauthorized".data, []⟩ =
      (.error ("API error ".data ++ "401 Unauthorized".data ++ ": ".data ++
        (some "unauthorized".data).getD []), []) :=
  ⟨by decide,
    (claim4_api_error parseTable sinkOk
      ⟨401, "401 Unauthorized".data, some "unauthorized".data, []⟩
      (by decide)).1.1⟩

/-- C5: if the decoded byte stream never contains the terminating line
`data: [DONE]`, the read loop runs to end of stream (`eof`, never the early
return) and `stream_chat_completion` returns the accumulated text as success,
not an error; in particular a single complete `"partial"` content event with
no `[DONE]` yields success `"partial"` with that one sink notification. -/
theorem claim5_eof_without_done (parse : List Char → Option StreamChunk)
    (sink : List Char → Bool) (resp : HttpResponse)
    (hok : isSuccess resp.statusCode)
    (hnodone : findSub (decodeJoin resp.chunks) dataDone = none)
    (hpp : parse plPartial = some (mkContentChunk "partial".data)) :
    (∃ f e, runChunks parse sink resp.chunks [] [] [] = .eof f e ∧
      stream_chat_completion parse sink resp = (.ok f, e)) ∧
    stream_chat_completion parse sink
      ⟨200, "200 OK".data, none, [strBytes partialText]⟩ =
      (.ok "partial".data, ["partial".data]) := by
  constructor
  · obtain ⟨f, e, hfe⟩ := runChunks_no_done parse sink resp.chunks hnodone
    refine ⟨f, e, hfe, ?_⟩
    unfold stream_chat_completion
    rw [if_pos hok]
    simp [hfe, RunOut.full, RunOut.emitted]
  · have hascii : ∀ b ∈ strBytes partialText, b < 0x80 := by decide
    have hdec : decodeJoin [strBytes partialText] = partialText.data := by
      rw [decodeJoin_ascii (by simp) hascii, map_ofNat_strBytes]
    have hrun : runChunks parse sink [strBytes partialText] [] [] [] =
        .eof "partial".data ["partial".data] := by
      rw [runChunks_drain parse sink [strBytes partialText] [] [] [] (by decide)]
      simp only [List.nil_append, hdec]
      have hfind1 : findSub partialText.data nlnl = some 51 := by decide
      have hlines1 : procLines parse sink (rustLines (partialText.data.take 51)) [] [] =
          .next "partial".data ["partial".data] := by
        rw [show rustLines (partialText.data.take 51) =
          [("data: ".data ++ plPartial : List Char)] from by decide]
        rw [procLines_single_content parse sink [] []
          (show stripPre dataMarker ("data: ".data ++ plPartial) = some plPartial
            from by decide) (by decide) hpp]
        decide
      have hP : procBuffer parse sink partialText.data [] [] =
          .cont (partialText.data.drop (51 + 2)) "partial".data ["partial".data] := by
        rw [procBuffer_cont_step parse sink hfind1 hlines1]
        exact procBuffer_none parse sink (by decide)
      rw [hP]
    unfold stream_chat_completion
    rw [if_pos (by decide)]
    simp [hrun, RunOut.full, RunOut.emitted]

/-- C5 witness: a closed stream carrying only the `"partial"` event. -/
theorem claim5_eof_without_done_witness :
    isSuccess 200 ∧
    findSub (decodeJoin [strBytes partialText]) dataDone = none ∧
    parseTable plPartial = some (mkContentChunk "partial".data) ∧
    stream_chat_completion parseTable sinkOk
      ⟨200, "200 OK".data, none, [strBytes partialText]⟩ =
      (.ok "partial".data, ["partial".data]) :=
  ⟨by decide, by decide, by decide,
    (claim5_eof_without_done parseTable sinkOk
      ⟨200, "200 OK".data, none, [strBytes partialText]⟩
      (by decide) (by decide) (by decide)).2⟩

/-- C6: a `data: ` line whose payload is not `[DONE]` and fails to parse is
silently skipped — the line leaves the accumulator and the emitted fragments
unchanged, does not terminate the event loop, and processing continues with
the remaining lines. -/
theorem claim6_malformed_line_skipped (parse : List Char → Option StreamChunk)
    (sink : List Char → Bool) (full : List Char) (em : List (List Char))
    (line data : List Char) (ls : List (List Char))
    (hsp : stripPre dataMarker line = some data) (hne : data ≠ doneTok)
    (hfail : parse data = none) :
    procLine parse sink full em line = .next full em ∧
    procLines parse sink (line :: ls) full em = procLines parse sink ls full em := by
  have h1 : procLine parse sink full em line = .next full em := by
    unfold procLine
    simp only [hsp, if_neg hne, hfail]
  refine ⟨h1, ?_⟩
  rw [procLines]
  simp only [h1]

/-- C6 witness: a malformed payload `{oops` under the concrete parser. -/
theorem claim6_malformed_line_skipped_witness :
    stripPre dataMarker "data: \x7boops".data = some "\x7boops".data ∧
    "\x7boops".data ≠ doneTok ∧
    parseTable "\x7boops".data = none ∧
    (procLine parseTable sinkOk "x".data [] "data: \x7boops".data = .next "x".data [] ∧
     procLines parseTable sinkOk ["data: \x7boops".data] "x".data [] =
       procLines parseTable sinkOk [] "x".data []) :=
  ⟨by decide, by decide, by decide,
    claim6_malformed_line_skipped parseTable sinkOk "x".data []
      "data: \x7boops".data "\x7boops".data [] (by decide) (by decide) (by decide)⟩

/-- C3: the returned text is not invariant under re-chunking of the response
bytes.  `bytesWhole` is a valid-UTF-8 body (its lossy decoding contains no
replacement character) carrying the content `"é"`; delivered as one chunk the
run accumulates `"é"`, but split between the two bytes of the `é` — each
chunk being lossily decoded in isolation — the run accumulates two U+FFFD
replacement characters instead, a different result.  The parser hypotheses
pin down serde's behaviour on the two payloads actually seen. -/
theorem claim3_rechunking_not_invariant (parse : List Char → Option StreamChunk)
    (sink : List Char → Bool)
    (hE : parse plE = some (mkContentChunk "é".data))
    (hR : parse plR = some (mkContentChunk [fffd, fffd])) :
    fffd ∉ utf8Lossy bytesWhole ∧
    ([bytesWhole] : List (List Nat)).flatten = bytesWhole ∧
    ([bytesA, bytesB] : List (List Nat)).flatten = bytesWhole ∧
    runChunks parse sink [bytesWhole] [] [] [] = .eof "é".data ["é".data] ∧
    runChunks parse sink [bytesA, bytesB] [] [] [] =
      .eof [fffd, fffd] [[fffd, fffd]] ∧
    (runChunks parse sink [bytesWhole] [] [] []).full ≠
      (runChunks parse sink [bytesA, bytesB] [] [] []).full := by
  have hrunA : runChunks parse sink [bytesWhole] [] [] [] =
      .eof "é".data ["é".data] := by
    rw [runChunks_drain parse sink [bytesWhole] [] [] [] (by decide)]
    simp only [List.nil_append]
    have hfind : findSub (decodeJoin [bytesWhole]) nlnl = some 45 := by decide
    have hlines : procLines parse sink
        (rustLines ((decodeJoin [bytesWhole]).take 45)) [] [] =
        .next "é".data ["é".data] := by
      rw [show rustLines ((decodeJoin [bytesWhole]).take 45) =
        [(dataMarker ++ plE : List Char)] from by decide]
      rw [procLines_single_content parse sink [] []
        (show stripPre dataMarker (dataMarker ++ plE) = some plE from by decide)
        (by decide) hE]
      decide
    rw [procBuffer_cont_step parse sink hfind hlines]
    rw [procBuffer_none parse sink
      (show findSub ((decodeJoin [bytesWhole]).drop (45 + 2)) nlnl = none from by decide)]
  have hrunB : runChunks parse sink [bytesA, bytesB] [] [] [] =
      .eof [fffd, fffd] [[fffd, fffd]] := by
    rw [runChunks_drain parse sink [bytesA, bytesB] [] [] [] (by decide)]
    simp only [List.nil_append]
    have hfind : findSub (decodeJoin [bytesA, bytesB]) nlnl = some 46 := by decide
    have hlines : procLines parse sink
        (rustLines ((decodeJoin [bytesA, bytesB]).take 46)) [] [] =
        .next [fffd, fffd] [[fffd, fffd]] := by
      rw [show rustLines ((decodeJoin [bytesA, bytesB]).take 46) =
        [(dataMarker ++ plR : List Char)] from by decide]
      rw [procLines_single_content parse sink [] []
        (show stripPre dataMarker (dataMarker ++ plR) = some plR from by decide)
        (by decide) hR]
      decide
    rw [procBuffer_cont_step parse sink hfind hlines]
    rw [procBuffer_none parse sink
      (show findSub ((decodeJoin [bytesA, bytesB]).drop (46 + 2)) nlnl = none from by decide)]
  refine ⟨by decide, by simp, by decide, hrunA, hrunB, ?_⟩
  rw [hrunA, hrunB]
  simp only [RunOut.full]
  decide

/-- C3 witness: the two deliveries under the concrete parser. -/
theorem claim3_rechunking_not_invariant_witness :
    parseTable plE = some (mkContentChunk "é".data) ∧
    parseTable plR = some (mkContentChunk [fffd, fffd]) ∧
    (runChunks parseTable sinkOk [bytesWhole] [] [] []).full ≠
      (runChunks parseTable sinkOk [bytesA, bytesB] [] [] []).full :=
  ⟨by decide, by decide,
    (claim3_rechunking_not_invariant parseTable sinkOk
      (by decide) (by decide)).2.2.2.2.2⟩

/-! ### The fence scanner: fuel irrelevance and step lemmas -/

theorem scanFencesF_nil (tag : List Char) :
    ∀ fuel, scanFencesF tag fuel [] = [] := by
  intro fuel
  cases fuel with
  | zero => rfl
  | succ f =>
    rw [scanFencesF]
    cases hf : findSub [] tag with
    | none => simp only [hf]
    | some i =>
      simp only [hf]
      rw [List.drop_nil]
      rw [show findSub [] close3 = none from by decide]

theorem scanFencesF_mono (tag : List Char) :
    ∀ n m text, text.length ≤ n → text.length ≤ m →
      scanFencesF tag n text = scanFencesF tag m text := by
  intro n
  induction n with
  | zero =>
    intro m text hn _
    have ht : text = [] := List.length_eq_zero.mp (Nat.le_zero.mp hn)
    subst ht
    rw [scanFencesF_nil, scanFencesF_nil]
  | succ n' ih =>
    intro m text hn hm
    cases m with
    | zero =>
      have ht : text = [] := List.length_eq_zero.mp (Nat.le_zero.mp hm)
      subst ht
      rw [scanFencesF_nil, scanFencesF_nil]
    | succ m' =>
      rw [scanFencesF, scanFencesF]
      cases hf : findSub text tag with
      | none => simp only
      | some i =>
        simp only
        cases hf2 : findSub (text.drop (i + tag.length)) close3 with
        | none => simp only
        | some j =>
          simp only
          congr 1
          have houter := findSub_le hf
          have hinner := findSub_le hf2
          have hc3 : close3.length = 3 := rfl
          rw [List.length_drop] at hinner
          apply ih
          · rw [List.length_drop, List.length_drop]; omega
          · rw [List.length_drop, List.length_drop]; omega

theorem scanFences_noclose {tag text : List Char} {i : Nat}
    (h : findSub text tag = some i)
    (h2 : findSub (text.drop (i + tag.length)) close3 = none) :
    scanFences tag text = [] := by
  unfold scanFences
  cases hl : text.length with
  | zero => rfl
  | succ k => rw [scanFencesF]; simp only [h, h2]

theorem scanFences_step {tag text : List Char} {i j : Nat}
    (h : findSub text tag = some i)
    (h2 : findSub (text.drop (i + tag.length)) close3 = some j) :
    scanFences tag text =
      trimRust ((text.drop (i + tag.length)).take j) ::
        scanFences tag ((text.drop (i + tag.length)).drop (j + 3)) := by
  unfold scanFences
  have houter := findSub_le h
  have hinner := findSub_le h2
  have hc3 : close3.length = 3 := rfl
  rw [List.length_drop] at hinner
  cases hl : text.length with
  | zero => omega
  | succ k =>
    rw [scanFencesF]
    simp only [h, h2]
    congr 1
    apply scanFencesF_mono
    · rw [List.length_drop, List.length_drop]; omega
    · exact le_refl _

/-- C9: `extract_bsl_code` is the ```` ```bsl ```` scan pass followed by the
```` ```1c ```` scan pass over the same text, results appended in that order
(each region's inner text trimmed); in particular on
`"```bsl\nA();\n```\ntext\n```1c\nB();\n```"` it returns `["A();", "B();"]`
in that order. -/
theorem claim9_extract_two_passes :
    (∀ t : List Char, extract_bsl_code t =
      scanFences "```bsl".data t ++ scanFences "```1c".data t) ∧
    extract_bsl_code "```bsl\nA();\n```\ntext\n```1c\nB();\n```".data =
      ["A();".data, "B();".data] :=
  ⟨fun _ => rfl, by decide⟩

/-- C10: an opening fence with no matching closing fence ends that tag's
scan pass at that point, with no partial region emitted and nothing later in
that pass reached; in particular `"```bsl\nunterminated"` extracts nothing. -/
theorem claim10_unterminated_fence :
    (∀ (tag text : List Char) (i : Nat), findSub text tag = some i →
      findSub (text.drop (i + tag.length)) close3 = none →
      scanFences tag text = []) ∧
    extract_bsl_code "```bsl\nunterminated".data = [] :=
  ⟨fun _ _ _ h h2 => scanFences_noclose h h2, by decide⟩

/-- C10 witness: the unterminated example, scanned with the ```` ```bsl ````
tag. -/
theorem claim10_unterminated_fence_witness :
    findSub "```bsl\nunterminated".data "```bsl".data = some 0 ∧
    findSub ("```bsl\nunterminated".data.drop (0 + ("```bsl".data).length))
      close3 = none ∧
    scanFences "```bsl".data "```bsl\nunterminated".data = [] :=
  ⟨by decide, by decide,
    claim10_unterminated_fence.1 "```bsl".data "```bsl\nunterminated".data 0
      (by decide) (by decide)⟩

/-! ### The models-URL derivation -/

theorem findSub_sound {l pat : List Char} {i : Nat}
    (h : findSub l pat = some i) : ∃ r, l.drop i = pat ++ r := by
  induction l generalizing i with
  | nil =>
    rw [findSub] at h
    by_cases hp : (stripPre pat ([] : List Char)).isSome
    · simp only [hp, if_true] at h
      simp at h
      subst h
      rcases Option.isSome_iff_exists.mp hp with ⟨r, hr⟩
      exact ⟨r, by simpa using stripPre_some_append hr⟩
    · simp [hp] at h
  | cons c t ih =>
    rw [findSub] at h
    by_cases hp : (stripPre pat (c :: t)).isSome
    · simp only [hp, if_true] at h
      simp at h
      subst h
      rcases Option.isSome_iff_exists.mp hp with ⟨r, hr⟩
      exact ⟨r, by simpa using stripPre_some_append hr⟩
    · simp only [hp, if_false] at h
      rcases Option.map_eq_some'.mp h with ⟨q, hq, hqi⟩
      rcases ih hq with ⟨r, hr⟩
      subst hqi
      exact ⟨r, by simpa using hr⟩

theorem rustReplaceF_nil : ∀ fuel, rustReplaceF chatSuffix modelsSeg fuel [] = [] := by
  intro fuel
  cases fuel with
  | zero => rfl
  | succ f =>
    rw [rustReplaceF]
    rw [show findSub [] chatSuffix = none from by decide]

theorem rustReplace_single_suffix {base : List Char} {i : Nat}
    (h : findSub base chatSuffix = some i)
    (hi : i + chatSuffix.length = base.length) :
    rustReplace base chatSuffix modelsSeg = base.take i ++ modelsSeg := by
  unfold rustReplace
  have hle := findSub_le h
  have h17 : chatSuffix.length = 17 := rfl
  cases hl : base.length with
  | zero => omega
  | succ k =>
    rw [rustReplaceF]
    simp only [h]
    have hdrop : base.drop (i + chatSuffix.length) = [] := by
      rw [hi]
      exact List.drop_length _
    rw [hdrop, rustReplaceF_nil]
    simp

/-- C7 counterexample: a base URL that ends with `/chat/completions` but
contains it twice.  The code (`str::replace`) rewrites both occurrences,
while the claim's suffix replacement would rewrite only the final one, so
the claim as stated fails on this input. -/
theorem claim7_counterexample :
    rustEndsWith "http://h/chat/completions/chat/completions".data chatSuffix = true ∧
    fetch_models_url "http://h/chat/completions/chat/completions".data =
      "http://h/models/models".data ∧
    suffixReplaceUrl "http://h/chat/completions/chat/completions".data =
      "http://h/chat/completions/models".data ∧
    fetch_models_url "http://h/chat/completions/chat/completions".data ≠
      suffixReplaceUrl "http://h/chat/completions/chat/completions".data := by
  decide

/-- C7 (amended): if `baseUrl` ends with `/chat/completions`, the request URL
is `baseUrl` with every occurrence of `/chat/completions` replaced by
`/models` — which coincides with replacing just that suffix whenever the
suffix occurrence is the only one (first occurrence at the end); otherwise
the URL is `baseUrl` with all trailing slashes stripped, followed by
`/models`. -/
theorem claim7_url_derivation_amended :
    (∀ base : List Char, rustEndsWith base chatSuffix = true →
      fetch_models_url base = rustReplace base chatSuffix modelsSeg) ∧
    (∀ (base : List Char) (i : Nat), findSub base chatSuffix = some i →
      i + chatSuffix.length = base.length →
      fetch_models_url base = base.take i ++ modelsSeg) ∧
    (∀ base : List Char, rustEndsWith base chatSuffix = false →
      fetch_models_url base = trimEndSlashes base ++ modelsSeg) := by
  refine ⟨?_, ?_, ?_⟩
  · intro base hew
    unfold fetch_models_url
    rw [hew]
    rfl
  · intro base i h hi
    have h17 : chatSuffix.length = 17 := rfl
    have hew : rustEndsWith base chatSuffix = true := by
      obtain ⟨r, hr⟩ := findSub_sound h
      have hrlen : r.length = 0 := by
        have hlen := congrArg List.length hr
        rw [List.length_drop, List.length_append] at hlen
        have hle := findSub_le h
        omega
      have hrnil : r = [] := List.length_eq_zero.mp hrlen
      subst hrnil
      rw [List.append_nil] at hr
      unfold rustEndsWith
      rw [show base.length - chatSuffix.length = i from by omega]
      simp [hr]
    unfold fetch_models_url
    rw [hew]
    simp only [if_true]
    exact rustReplace_single_suffix h hi
  · intro base hew
    unfold fetch_models_url
    rw [hew]
    rfl

/-- C7 witness: a single-occurrence base URL for the then-branch and a bare
`/v1/` base URL for the else-branch. -/
theorem claim7_url_derivation_amended_witness :
    rustEndsWith "https://api.example.com/v1/chat/completions".data chatSuffix = true ∧
    findSub "https://api.example.com/v1/chat/completions".data chatSuffix = some 26 ∧
    26 + chatSuffix.length = ("https://api.example.com/v1/chat/completions".data).length ∧
    fetch_models_url "https://api.example.com/v1/chat/completions".data =
      ("https://api.example.com/v1/chat/completions".data).take 26 ++ modelsSeg ∧
    rustEndsWith "https://api.example.com/v1/".data chatSuffix = false ∧
    fetch_models_url "https://api.example.com/v1/".data =
      trimEndSlashes "https://api.example.com/v1/".data ++ modelsSeg :=
  ⟨by decide, by decide, by decide,
    claim7_url_derivation_amended.2.1 "https://api.example.com/v1/chat/completions".data
      26 (by decide) (by decide),
    by decide,
    claim7_url_derivation_amended.2.2 "https://api.example.com/v1/".data (by decide)⟩

/-! ### The model list: sortedness and permutation -/

theorem strLeB_total : ∀ x y : List Char, strLeB x y = true ∨ strLeB y x = true := by
  intro x
  induction x with
  | nil => intro y; left; rfl
  | cons a xs ih =>
    intro y
    cases y with
    | nil => right; rfl
    | cons b ys =>
      rw [strLeB, strLeB]
      rcases Nat.lt_trichotomy a.toNat b.toNat with h | h | h
      · left; simp [h]
      · have h1 : ¬ a.toNat < b.toNat := by omega
        have h2 : ¬ b.toNat < a.toNat := by omega
        simp only [if_neg h1, if_neg h2]
        exact ih ys
      · right; simp [h]

theorem strLeB_trans : ∀ x y z : List Char,
    strLeB x y = true → strLeB y z = true → strLeB x z = true := by
  intro x
  induction x with
  | nil => intro y z _ _; rfl
  | cons a xs ih =>
    intro y z hxy hyz
    cases y with
    | nil => simp [strLeB] at hxy
    | cons b ys =>
      cases z with
      | nil => simp [strLeB] at hyz
      | cons c zs =>
        rw [strLeB] at hxy hyz ⊢
        by_cases hab1 : a.toNat < b.toNat
        · by_cases hbc1 : b.toNat < c.toNat
          · simp [show a.toNat < c.toNat from by omega]
          · simp only [if_neg hbc1] at hyz
            by_cases hcb : c.toNat < b.toNat
            · simp [hcb] at hyz
            · simp [show a.toNat < c.toNat from by omega]
        · simp only [if_neg hab1] at hxy
          by_cases hba : b.toNat < a.toNat
          · simp [hba] at hxy
          · simp only [if_neg hba] at hxy
            by_cases hbc1 : b.toNat < c.toNat
            · simp [show a.toNat < c.toNat from by omega]
            · simp only [if_neg hbc1] at hyz
              by_cases hcb : c.toNat < b.toNat
              · simp [hcb] at hyz
              · simp only [if_neg hcb] at hyz
                have h1 : ¬ a.toNat < c.toNat := by omega
                have h2 : ¬ c.toNat < a.toNat := by omega
                simp only [if_neg h1, if_neg h2]
                exact ih ys zs hxy hyz

theorem strLe_total (s t : String) : strLe s t = true ∨ strLe t s = true :=
  strLeB_total s.data t.data

theorem strLe_trans {s t u : String} (h1 : strLe s t = true)
    (h2 : strLe t u = true) : strLe s u = true :=
  strLeB_trans s.data t.data u.data h1 h2

theorem insertStr_perm (s : String) : ∀ l, (insertStr s l).Perm (s :: l) := by
  intro l
  induction l with
  | nil => exact List.Perm.refl _
  | cons t ts ih =>
    rw [insertStr]
    by_cases h : strLe s t = true
    · rw [if_pos h]
    · rw [if_neg h]
      exact (ih.cons t).trans (List.Perm.swap s t ts)

theorem sortStrings_perm : ∀ l, (sortStrings l).Perm l := by
  intro l
  induction l with
  | nil => exact List.Perm.refl _
  | cons s ss ih =>
    rw [sortStrings]
    exact ((insertStr_perm s (sortStrings ss)).trans (ih.cons s))

theorem insertStr_sorted (s : String) :
    ∀ l, List.Pairwise (fun a b => strLe a b = true) l →
      List.Pairwise (fun a b => strLe a b = true) (insertStr s l) := by
  intro l
  induction l with
  | nil => intro _; simp [insertStr]
  | cons t ts ih =>
    intro hp
    rw [insertStr]
    by_cases h : strLe s t = true
    · rw [if_pos h]
      apply List.Pairwise.cons
      · intro b hb
        rcases List.mem_cons.mp hb with rfl | hb'
        · exact h
        · exact strLe_trans h ((List.pairwise_cons.mp hp).1 b hb')
      · exact hp
    · rw [if_neg h]
      have htot : strLe t s = true := by
        rcases strLe_total s t with hst | hts
        · exact absurd hst h
        · exact hts
      apply List.Pairwise.cons
      · intro b hb
        have hmem := (insertStr_perm s ts).mem_iff.mp hb
        rcases List.mem_cons.mp hmem with rfl | hb'
        · exact htot
        · exact (List.pairwise_cons.mp hp).1 b hb'
      · exact ih (List.pairwise_cons.mp hp).2

theorem sortStrings_sorted :
    ∀ l, List.Pairwise (fun a b => strLe a b = true) (sortStrings l) := by
  intro l
  induction l with
  | nil => exact List.Pairwise.nil
  | cons s ss ih =>
    rw [sortStrings]
    exact insertStr_sorted s (sortStrings ss) ih

/-- C8: `fetch_models` reads the string-valued `id` of each element of the
response's `data` list, silently skipping elements whose `id` is missing or
not a string, and returns the collected identifiers sorted in Rust's
lexicographic string order (the result is a sorted permutation of the
collected list); in particular
`{"data":[{"id":"gpt-4"},{"id":"gpt-3.5"},{"bad":1}]}` yields
`["gpt-3.5","gpt-4"]`. -/
theorem claim8_models_sorted :
    (∀ j : Json, List.Pairwise (fun a b => strLe a b = true) (fetch_models_ids j) ∧
      (fetch_models_ids j).Perm (extractModels j)) ∧
    extractModels exampleModelsJson = ["gpt-4", "gpt-3.5"] ∧
    fetch_models_ids exampleModelsJson = ["gpt-3.5", "gpt-4"] :=
  ⟨fun _ => ⟨sortStrings_sorted _, sortStrings_perm _⟩, by decide, by decide⟩
